import Mathlib

/-!
Verification of the voice-registry core of the pianoSynth repository
(src/hooks/useSynth.ts), together with the input-layer range guard of
src/components/VirtualPiano.tsx.

The embedding is shallow: the two JavaScript `Map`s `activeOscillators` and
`sustainedOscillators` become association lists from MIDI note (ℤ) to a
`Voice` record; Web Audio `AudioParam` scheduling calls
(`cancelScheduledValues`, `setValueAtTime`, `linearRampToValueAtTime`,
`exponentialRampToValueAtTime`) become operations on an explicit event
schedule; `setTimeout`-deferred disconnection becomes a list of pending
disposals consumed by an explicit `fireDisposal` step; amplitudes and clock
times are rationals.  Oscillator/gain-node object identity is modelled by a
`Nat` tag drawn from a fresh-name counter.
-/

namespace PianoSynth

/-- One scheduled event on a Web Audio `AudioParam`
(`setValueAtTime`, `linearRampToValueAtTime`, `exponentialRampToValueAtTime`). -/
inductive GainEvent where
  | setValue (v : ℚ) (t : ℚ)
  | linearRamp (v : ℚ) (t : ℚ)
  | expRamp (v : ℚ) (t : ℚ)
deriving DecidableEq

/-- An `AudioParam` (a `GainNode`'s `gain`): its current instantaneous value
(`gain.value`) and the list of currently scheduled events, in scheduling
order.  `cancelScheduledValues` empties the schedule. -/
structure GainParam where
  value : ℚ
  sched : List GainEvent
deriving DecidableEq

/-- `gain.cancelScheduledValues(t)`: drop every scheduled event. -/
def gainCancel (g : GainParam) : GainParam :=
  { g with sched := [] }

/-- `gain.setValueAtTime(v, t)` called with `t = currentTime`: the value is
pinned to `v` and the event is appended to the schedule. -/
def gainSetValueAtTime (g : GainParam) (v t : ℚ) : GainParam :=
  { value := v, sched := g.sched ++ [GainEvent.setValue v t] }

/-- `gain.linearRampToValueAtTime(v, t)`: append a linear ramp event. -/
def gainLinearRamp (g : GainParam) (v t : ℚ) : GainParam :=
  { g with sched := g.sched ++ [GainEvent.linearRamp v t] }

/-- `gain.exponentialRampToValueAtTime(v, t)`: append an exponential ramp
event. -/
def gainExpRamp (g : GainParam) (v t : ℚ) : GainParam :=
  { g with sched := g.sched ++ [GainEvent.expRamp v t] }

/-- The `ActiveNoteData` record of src/types (an `OscillatorNode` paired with
a `GainNode`), with object identity made explicit: `oscId` tags the
oscillator/gain pair, `midi` is the note the oscillator frequency was derived
from at creation, and `oscStopTime` records a scheduled `osc.stop(t)`. -/
structure Voice where
  oscId : Nat
  midi : ℤ
  gain : GainParam
  oscStopTime : Option ℚ
deriving DecidableEq

/-- The frequency the source assigns to the oscillator of a voice
(src/hooks/useSynth.ts line 59): `440 * 2 ^ ((midiNote - 69) / 12)`. -/
noncomputable def voiceFrequency (v : Voice) : ℝ :=
  440 * (2 : ℝ) ^ (((v.midi : ℝ) - 69) / 12)

/-- Association-list lookup mirroring `Map.get`. -/
def mapGet (m : ℤ) (l : List (ℤ × Voice)) : Option Voice :=
  (l.find? (fun p => p.1 == m)).map Prod.snd

/-- `Map.has`. -/
def mapHas (m : ℤ) (l : List (ℤ × Voice)) : Bool :=
  (mapGet m l).isSome

/-- `Map.delete`. -/
def mapDelete (m : ℤ) (l : List (ℤ × Voice)) : List (ℤ × Voice) :=
  l.filter (fun p => p.1 != m)

/-- `Map.set` (insert or overwrite). -/
def mapSet (m : ℤ) (v : Voice) (l : List (ℤ × Voice)) : List (ℤ × Voice) :=
  mapDelete m l ++ [(m, v)]

/-- The mutable state owned by `useSynth`: whether the `AudioContext` and
master gain node were created, the master gain param, the audio clock
(`ctx.currentTime`), the two voice maps, a fresh-object counter, the
`setTimeout` disposal callbacks not yet fired (each holding the voice object
it captured and its wall-clock fire time), and the tags of oscillators whose
deferred `disconnect` has already run. -/
structure SynthState where
  ctxReady : Bool
  masterGain : GainParam
  now : ℚ
  active : List (ℤ × Voice)
  sustaining : List (ℤ × Voice)
  nextOscId : Nat
  pendingDisposals : List (Voice × ℚ)
  disposed : List Nat
deriving DecidableEq

/-- State after the initialization effect: `createGain` yields a gain param
with value 1 and empty schedule; both voice maps start empty.  `ready` is
false when the platform provides no `AudioContext` constructor. -/
def initState (ready : Bool) : SynthState :=
  { ctxReady := ready
    masterGain := { value := 1, sched := [] }
    now := 0
    active := []
    sustaining := []
    nextOscId := 0
    pendingDisposals := []
    disposed := [] }

/-- `setMasterVolume` (src/hooks/useSynth.ts lines 29-35): scale the 0-10 UI
volume to 0-1, clamp, and `setValueAtTime` it on the master gain. -/
def setMasterVolume (s : SynthState) (volume : ℚ) : SynthState :=
  if s.ctxReady then
    let g := gainSetValueAtTime s.masterGain (min 1 (max 0 (volume / 10))) s.now
    { s with masterGain := g }
  else s

/-- `playNote` (src/hooks/useSynth.ts lines 37-80).  A sustaining note is
moved back to `active` with its pending ramps cancelled; an already active
note is a no-op; otherwise a fresh oscillator/gain pair is created, the
attack envelope `setValueAtTime(0, t)`, `linearRampToValueAtTime(volume,
t + 0.015)` is scheduled, and the voice is registered in `active`. -/
def retrigVoice (v : Voice) : Voice :=
  { v with gain := gainCancel v.gain }

/-- The voice created by the fresh-note path of `playNote`: a new
oscillator/gain pair (`createOscillator`/`createGain`) whose attack envelope
`setValueAtTime(0, t)`, `linearRampToValueAtTime(volume, t + 0.015)` is
scheduled on creation. -/
def freshVoice (n : ℕ) (midi : ℤ) (now volume : ℚ) : Voice :=
  let g := gainLinearRamp (gainSetValueAtTime { value := 1, sched := [] } 0 now) volume (now + 15 / 1000)
  { oscId := n, midi := midi, gain := g, oscStopTime := none }

def playNote (s : SynthState) (midi : ℤ) (volume : ℚ) : SynthState :=
  if s.ctxReady then
    match mapGet midi s.sustaining with
    | some v =>
        { s with
          sustaining := mapDelete midi s.sustaining
          active := mapSet midi (retrigVoice v) s.active }
    | none =>
        if mapHas midi s.active then s
        else
          { s with
            active := mapSet midi (freshVoice s.nextOscId midi s.now volume) s.active
            nextOscId := s.nextOscId + 1 }
  else s

/-- The voice as left by the sustain branch of `stopNote`: ramps cancelled,
then a linear decay to `0.4 * gain.value` over 0.8 s, with no pinning
`setValueAtTime` in between. -/
def sustainVoice (now : ℚ) (v : Voice) : Voice :=
  let g := gainLinearRamp (gainCancel v.gain) (v.gain.value * (4 / 10)) (now + 8 / 10)
  { v with gain := g }

/-- The voice as left by the release branch of `stopNote`: ramps cancelled,
current value pinned, exponential ramp to 0.001 over 0.15 s, and `osc.stop`
scheduled at `t + 0.2`. -/
def stopVoice (now : ℚ) (v : Voice) : Voice :=
  let g := gainExpRamp (gainSetValueAtTime (gainCancel v.gain) v.gain.value now) (1 / 1000) (now + 15 / 100)
  { v with gain := g, oscStopTime := some (now + 15 / 100 + 5 / 100) }

/-- `stopNote` (src/hooks/useSynth.ts lines 82-113).  The note is removed
from `active`; with global sustain on it moves to `sustaining` as
`sustainVoice`; otherwise it becomes `stopVoice`, a `setTimeout` disconnect
is queued for 0.25 s later, and no map retains it. -/
def stopNote (s : SynthState) (midi : ℤ) (isGlobalSustainActive : Bool) :
    SynthState :=
  if s.ctxReady then
    match mapGet midi s.active with
    | none => s
    | some v =>
        if isGlobalSustainActive then
          { s with
            active := mapDelete midi s.active
            sustaining := mapSet midi (sustainVoice s.now v) s.sustaining }
        else
          { s with
            active := mapDelete midi s.active
            pendingDisposals := s.pendingDisposals ++ [(stopVoice s.now v, s.now + (15 / 100 + 1 / 10))] }
  else s

/-- The per-voice body of the `releaseGlobalSustain` loop (src/hooks/useSynth.ts
lines 120-129): cancel ramps, pin the current value, schedule an exponential
release to 0.001 over 0.2 s and `osc.stop` at `t + 0.25`. -/
def releaseVoice (now : ℚ) (v : Voice) : Voice :=
  let g := gainExpRamp (gainSetValueAtTime (gainCancel v.gain) v.gain.value now) (1 / 1000) (now + 2 / 10)
  { v with gain := g, oscStopTime := some (now + 2 / 10 + 5 / 100) }

/-- `releaseGlobalSustain` (src/hooks/useSynth.ts lines 115-132): every
sustaining voice gets the release treatment and a `setTimeout` disconnect at
0.3 s, and the `sustaining` map is cleared synchronously. -/
def releaseGlobalSustain (s : SynthState) : SynthState :=
  if s.ctxReady then
    let newPend := s.sustaining.map (fun p => (releaseVoice s.now p.2, s.now + 3 / 10))
    { s with
      sustaining := []
      pendingDisposals := s.pendingDisposals ++ newPend }
  else s

/-- `enforceSilence` (src/hooks/useSynth.ts lines 134-165): sweep both maps,
tearing each voice down inside its own `try`/`catch` (the oracle `fails`
says which voices throw during teardown; a caught exception skips only that
voice's disconnect), then clear both maps unconditionally. -/
def enforceSilence (fails : Nat → Bool) (s : SynthState) : SynthState :=
  if s.ctxReady then
    let sweep := fun (l : List (ℤ × Voice)) =>
      l.filterMap fun p => if fails p.2.oscId then none else some p.2.oscId
    { s with
      active := []
      sustaining := []
      disposed := s.disposed ++ sweep s.active ++ sweep s.sustaining }
  else s

/-- A queued `setTimeout` disposal callback runs: it unconditionally
disconnects the oscillator and gain node it captured (src/hooks/useSynth.ts
lines 108-111 and 126-129 perform no membership re-check). -/
def fireDisposal (s : SynthState) : SynthState :=
  match s.pendingDisposals with
  | [] => s
  | (v, _) :: rest =>
      { s with pendingDisposals := rest, disposed := s.disposed ++ [v.oscId] }

/-- The audio clock advancing between calls. -/
def advanceTime (s : SynthState) (dt : ℚ) : SynthState :=
  { s with now := s.now + dt }

/-- The note-range guard of the physical-keyboard input layer
(src/components/VirtualPiano.tsx lines 69-79): `getMidiFromKey` may return
`null`, and `playNote` is reached only when the computed MIDI number is
truthy and within `[24, 108]`. -/
def handleKeyDownAllows (midi : Option ℤ) : Bool :=
  match midi with
  | none => false
  | some m => !(m == 0) && decide (24 ≤ m) && decide (m ≤ 108)

/-- One event-loop step of the registry: any public operation, a pending
disposal timer firing, or the audio clock advancing. -/
inductive Step : SynthState → SynthState → Prop where
  | play (s : SynthState) (m : ℤ) (vol : ℚ) : Step s (playNote s m vol)
  | stop (s : SynthState) (m : ℤ) (b : Bool) : Step s (stopNote s m b)
  | master (s : SynthState) (vol : ℚ) : Step s (setMasterVolume s vol)
  | releaseAll (s : SynthState) : Step s (releaseGlobalSustain s)
  | silence (s : SynthState) (fails : Nat → Bool) : Step s (enforceSilence fails s)
  | fire (s : SynthState) : Step s (fireDisposal s)
  | tick (s : SynthState) (dt : ℚ) : Step s (advanceTime s dt)

/-- States reachable from initialization by any sequence of steps. -/
inductive Reachable : SynthState → Prop where
  | init (ready : Bool) : Reachable (initState ready)
  | step {s t : SynthState} : Reachable s → Step s t → Reachable t

/-- Whether a scheduled gain event is a ramp segment. -/
def isRamp : GainEvent → Bool
  | GainEvent.linearRamp _ _ => true
  | GainEvent.expRamp _ _ => true
  | GainEvent.setValue _ _ => false

/-- Whether a scheduled gain event pins a fixed value (`setValueAtTime`). -/
def isPin : GainEvent → Bool
  | GainEvent.setValue _ _ => true
  | GainEvent.linearRamp _ _ => false
  | GainEvent.expRamp _ _ => false

/-- Helper for `pinnedSched`: every ramp in the list is immediately preceded
by a pinning event, `prev` being the event just before the list. -/
def pinnedFrom (prev : GainEvent) : List GainEvent → Bool
  | [] => true
  | e :: rest => ((!(isRamp e)) || isPin prev) && pinnedFrom e rest

/-- A schedule is pinned when no ramp starts it and every ramp segment is
immediately preceded by a `setValueAtTime` pinning the start value. -/
def pinnedSched : List GainEvent → Bool
  | [] => true
  | e :: rest => (!(isRamp e)) && pinnedFrom e rest

/-- Structural invariant of every reachable registry state: a note is in at
most one of the two maps, voices only exist when the backend is ready, all
oscillator tags are below the fresh counter, each oscillator tag identifies
at most one entry across the two maps, and no voice with a pending disposal
callback is present in either map. -/
structure Inv (s : SynthState) : Prop where
  emptyNotReady : s.ctxReady = false → s.active = [] ∧ s.sustaining = []
  disj : ∀ m : ℤ, mapHas m s.active = true → mapHas m s.sustaining = false
  activeLt : ∀ p ∈ s.active, p.2.oscId < s.nextOscId
  susLt : ∀ p ∈ s.sustaining, p.2.oscId < s.nextOscId
  pendLt : ∀ p ∈ s.pendingDisposals, p.1.oscId < s.nextOscId
  own : ∀ p ∈ s.active ++ s.sustaining, ∀ q ∈ s.active ++ s.sustaining,
      p.2.oscId = q.2.oscId → p = q
  pendActive : ∀ p ∈ s.pendingDisposals, ∀ q ∈ s.active, p.1.oscId ≠ q.2.oscId
  pendSus : ∀ p ∈ s.pendingDisposals, ∀ q ∈ s.sustaining, p.1.oscId ≠ q.2.oscId


theorem retrigVoice_oscId (v : Voice) : (retrigVoice v).oscId = v.oscId := rfl

theorem freshVoice_oscId (n : ℕ) (m : ℤ) (now vol : ℚ) :
    (freshVoice n m now vol).oscId = n := rfl

theorem sustainVoice_oscId (now : ℚ) (v : Voice) :
    (sustainVoice now v).oscId = v.oscId := rfl

theorem stopVoice_oscId (now : ℚ) (v : Voice) :
    (stopVoice now v).oscId = v.oscId := rfl

theorem releaseVoice_oscId (now : ℚ) (v : Voice) :
    (releaseVoice now v).oscId = v.oscId := rfl

/-! ### Association-list lemmas -/

theorem mem_mapDelete {p : ℤ × Voice} {m : ℤ} {l : List (ℤ × Voice)} :
    p ∈ mapDelete m l ↔ p ∈ l ∧ p.1 ≠ m := by
  simp [mapDelete, List.mem_filter, bne_iff_ne]

theorem mem_mapSet {p : ℤ × Voice} {m : ℤ} {v : Voice} {l : List (ℤ × Voice)} :
    p ∈ mapSet m v l ↔ (p ∈ l ∧ p.1 ≠ m) ∨ p = (m, v) := by
  simp [mapSet, mem_mapDelete, List.mem_append]

theorem mapGet_mem {m : ℤ} {l : List (ℤ × Voice)} {v : Voice}
    (h : mapGet m l = some v) : (m, v) ∈ l := by
  unfold mapGet at h
  cases hf : l.find? (fun p => p.1 == m) with
  | none => rw [hf] at h; simp at h
  | some q =>
      rw [hf] at h
      have hq : q ∈ l := List.mem_of_find?_eq_some hf
      have hp := List.find?_some hf
      have h1 : q.1 = m := by simpa using hp
      have h2 : q.2 = v := by simpa using h
      have hqe : (m, v) = q := by
        cases q
        simp_all
      rw [hqe]
      exact hq

theorem mapHas_iff {m : ℤ} {l : List (ℤ × Voice)} :
    mapHas m l = true ↔ ∃ v, (m, v) ∈ l := by
  constructor
  · intro h
    unfold mapHas at h
    cases hg : mapGet m l with
    | none => rw [hg] at h; simp at h
    | some v => exact ⟨v, mapGet_mem hg⟩
  · rintro ⟨v, hv⟩
    unfold mapHas mapGet
    cases hf : l.find? (fun p => p.1 == m) with
    | some q => simp
    | none =>
        rw [List.find?_eq_none] at hf
        exact absurd (by simp : ((m, v).1 == m) = true) (hf _ hv)

theorem mapHas_eq_false_of_get_none {m : ℤ} {l : List (ℤ × Voice)}
    (h : mapGet m l = none) : mapHas m l = false := by
  unfold mapHas
  rw [h]
  rfl

theorem mapGet_eq_none_of_has_false {m : ℤ} {l : List (ℤ × Voice)}
    (h : mapHas m l = false) : mapGet m l = none := by
  unfold mapHas at h
  cases hg : mapGet m l with
  | none => rfl
  | some v => rw [hg] at h; simp at h

theorem find?_append_of_none {α : Type} {p : α → Bool} {l₁ l₂ : List α}
    (h : l₁.find? p = none) : (l₁ ++ l₂).find? p = l₂.find? p := by
  induction l₁ with
  | nil => rfl
  | cons a t ih =>
      by_cases hpa : p a = true
      · rw [List.find?_cons_of_pos _ hpa] at h
        exact absurd h (by simp)
      · rw [List.find?_cons_of_neg _ hpa] at h
        rw [List.cons_append, List.find?_cons_of_neg _ hpa]
        exact ih h

theorem find?_mapDelete_self {m : ℤ} {l : List (ℤ × Voice)} :
    (mapDelete m l).find? (fun p => p.1 == m) = none := by
  rw [List.find?_eq_none]
  intro p hp
  have := (mem_mapDelete.mp hp).2
  simp [this]

theorem mapGet_mapSet_self {m : ℤ} {v : Voice} {l : List (ℤ × Voice)} :
    mapGet m (mapSet m v l) = some v := by
  unfold mapGet mapSet
  rw [find?_append_of_none find?_mapDelete_self]
  simp

theorem mapHas_mapDelete_iff {x m : ℤ} {l : List (ℤ × Voice)} :
    mapHas x (mapDelete m l) = true ↔ x ≠ m ∧ mapHas x l = true := by
  constructor
  · intro h
    obtain ⟨v, hv⟩ := mapHas_iff.mp h
    obtain ⟨hl, hne⟩ := mem_mapDelete.mp hv
    exact ⟨hne, mapHas_iff.mpr ⟨v, hl⟩⟩
  · rintro ⟨hne, h⟩
    obtain ⟨v, hv⟩ := mapHas_iff.mp h
    exact mapHas_iff.mpr ⟨v, mem_mapDelete.mpr ⟨hv, hne⟩⟩

theorem mapHas_mapSet_iff {x m : ℤ} {v : Voice} {l : List (ℤ × Voice)} :
    mapHas x (mapSet m v l) = true ↔ x = m ∨ (x ≠ m ∧ mapHas x l = true) := by
  constructor
  · intro h
    obtain ⟨w, hw⟩ := mapHas_iff.mp h
    rcases mem_mapSet.mp hw with ⟨hl, hne⟩ | heq
    · exact Or.inr ⟨hne, mapHas_iff.mpr ⟨w, hl⟩⟩
    · exact Or.inl (congrArg Prod.fst heq)
  · rintro (rfl | ⟨hne, h⟩)
    · exact mapHas_iff.mpr ⟨v, mem_mapSet.mpr (Or.inr rfl)⟩
    · obtain ⟨w, hw⟩ := mapHas_iff.mp h
      exact mapHas_iff.mpr ⟨w, mem_mapSet.mpr (Or.inl ⟨hw, hne⟩)⟩

theorem mapHas_mapDelete_self {m : ℤ} {l : List (ℤ × Voice)} :
    mapHas m (mapDelete m l) = false := by
  cases h : mapHas m (mapDelete m l) with
  | false => rfl
  | true => exact absurd rfl (mapHas_mapDelete_iff.mp h).1

theorem mapHas_mapDelete_false {x m : ℤ} {l : List (ℤ × Voice)}
    (h : mapHas x l = false) : mapHas x (mapDelete m l) = false := by
  cases h2 : mapHas x (mapDelete m l) with
  | false => rfl
  | true =>
      have := (mapHas_mapDelete_iff.mp h2).2
      rw [h] at this
      exact absurd this (by simp)

theorem own_fresh {A S : List (ℤ × Voice)} {n : ℕ} {m : ℤ} {w : Voice}
    (hboth : ∀ r ∈ A ++ S, r.2.oscId < n) (hw : w.oscId = n)
    (hown : ∀ p ∈ A ++ S, ∀ q ∈ A ++ S, p.2.oscId = q.2.oscId → p = q) :
    ∀ p ∈ mapSet m w A ++ S, ∀ q ∈ mapSet m w A ++ S,
      p.2.oscId = q.2.oscId → p = q := by
  have hchar : ∀ r : ℤ × Voice, r ∈ mapSet m w A ++ S →
      r ∈ A ++ S ∨ r = (m, w) := by
    intro r hr
    rcases List.mem_append.mp hr with h | h
    · rcases mem_mapSet.mp h with ⟨hA, _⟩ | heq
      · exact Or.inl (List.mem_append.mpr (Or.inl hA))
      · exact Or.inr heq
    · exact Or.inl (List.mem_append.mpr (Or.inr h))
  intro p hp q hq hpq
  rcases hchar p hp with hpo | rfl
  · rcases hchar q hq with hqo | rfl
    · exact hown p hpo q hqo hpq
    · rw [hw] at hpq
      exact absurd hpq (Nat.ne_of_lt (hboth p hpo))
  · rcases hchar q hq with hqo | rfl
    · rw [hw] at hpq
      exact absurd hpq.symm (Nat.ne_of_lt (hboth q hqo))
    · rfl

/-! ### The reachable-state invariant -/

theorem inv_initState (ready : Bool) : Inv (initState ready) := by
  refine ⟨?_, ?_, ?_, ?_, ?_, ?_, ?_, ?_⟩ <;> simp [initState, mapHas, mapGet]

theorem inv_playNote {s : SynthState} (hI : Inv s) (m : ℤ) (vol : ℚ) :
    Inv (playNote s m vol) := by
  unfold playNote
  cases hc : s.ctxReady with
  | false => simpa using hI
  | true =>
      simp only [if_true]
      cases hg : mapGet m s.sustaining with
      | some v =>
          dsimp only
          have hvS : (m, v) ∈ s.sustaining := mapGet_mem hg
          have hSm : mapHas m s.sustaining = true := mapHas_iff.mpr ⟨v, hvS⟩
          have hAm : mapHas m s.active = false := by
            cases hA : mapHas m s.active with
            | false => rfl
            | true =>
                have := hI.disj m hA
                rw [hSm] at this
                exact absurd this (by simp)
          have hchar : ∀ r : ℤ × Voice,
              r ∈ mapSet m (retrigVoice v) s.active ++
                  mapDelete m s.sustaining →
              r = (m, retrigVoice v) ∨
                (r ∈ s.active ++ s.sustaining ∧ r.1 ≠ m) := by
            intro r hr
            rcases List.mem_append.mp hr with h | h
            · rcases mem_mapSet.mp h with ⟨hA, hne⟩ | heq
              · exact Or.inr ⟨List.mem_append.mpr (Or.inl hA), hne⟩
              · exact Or.inl heq
            · obtain ⟨hS, hne⟩ := mem_mapDelete.mp h
              exact Or.inr ⟨List.mem_append.mpr (Or.inr hS), hne⟩
          refine ⟨?_, ?_, ?_, ?_, ?_, ?_, ?_, ?_⟩
          · intro h
            simp [hc] at h
          · intro x hx
            rcases mapHas_mapSet_iff.mp hx with rfl | ⟨hne, hxA⟩
            · exact mapHas_mapDelete_self
            · exact mapHas_mapDelete_false (hI.disj x hxA)
          · intro p hp
            rcases mem_mapSet.mp hp with ⟨hA, _⟩ | rfl
            · exact hI.activeLt p hA
            · exact hI.susLt (m, v) hvS
          · intro p hp
            exact hI.susLt p (mem_mapDelete.mp hp).1
          · exact hI.pendLt
          · intro p hp q hq hpq
            rcases hchar p hp with rfl | ⟨hpo, hpne⟩
            · rcases hchar q hq with rfl | ⟨hqo, hqne⟩
              · rfl
              · have : q = (m, v) := hI.own q hqo (m, v)
                  (List.mem_append.mpr (Or.inr hvS)) (by rw [← hpq]; exact retrigVoice_oscId v)
                rw [this] at hqne
                exact absurd rfl hqne
            · rcases hchar q hq with rfl | ⟨hqo, hqne⟩
              · have : p = (m, v) := hI.own p hpo (m, v)
                  (List.mem_append.mpr (Or.inr hvS)) (by rw [hpq]; exact retrigVoice_oscId v)
                rw [this] at hpne
                exact absurd rfl hpne
              · exact hI.own p hpo q hqo hpq
          · intro p hp q hq
            rcases mem_mapSet.mp hq with ⟨hA, _⟩ | rfl
            · exact hI.pendActive p hp q hA
            · exact hI.pendSus p hp (m, v) hvS
          · intro p hp q hq
            exact hI.pendSus p hp q (mem_mapDelete.mp hq).1
      | none =>
          cases ha : mapHas m s.active with
          | true => simpa using hI
          | false =>
              dsimp only
              rw [if_neg Bool.false_ne_true]
              have hSm : mapHas m s.sustaining = false :=
                mapHas_eq_false_of_get_none hg
              have hboth : ∀ r ∈ s.active ++ s.sustaining,
                  r.2.oscId < s.nextOscId := by
                intro r hr
                rcases List.mem_append.mp hr with h | h
                · exact hI.activeLt r h
                · exact hI.susLt r h
              refine ⟨?_, ?_, ?_, ?_, ?_, ?_, ?_, ?_⟩
              · intro h
                simp [hc] at h
              · intro x hx
                rcases mapHas_mapSet_iff.mp hx with rfl | ⟨_, hxA⟩
                · exact hSm
                · exact hI.disj x hxA
              · intro p hp
                rcases mem_mapSet.mp hp with ⟨hA, _⟩ | rfl
                · exact Nat.lt_succ_of_lt (hI.activeLt p hA)
                · exact Nat.lt_succ_self _
              · intro p hp
                exact Nat.lt_succ_of_lt (hI.susLt p hp)
              · intro p hp
                exact Nat.lt_succ_of_lt (hI.pendLt p hp)
              · exact own_fresh hboth rfl hI.own
              · intro p hp q hq
                rcases mem_mapSet.mp hq with ⟨hA, _⟩ | rfl
                · exact hI.pendActive p hp q hA
                · exact Nat.ne_of_lt (hI.pendLt p hp)
              · exact hI.pendSus

theorem inv_stopNote {s : SynthState} (hI : Inv s) (m : ℤ) (b : Bool) :
    Inv (stopNote s m b) := by
  unfold stopNote
  cases hc : s.ctxReady with
  | false => simpa using hI
  | true =>
      simp only [if_true]
      cases hg : mapGet m s.active with
      | none => exact hI
      | some v =>
          have hvA : (m, v) ∈ s.active := mapGet_mem hg
          have hAm : mapHas m s.active = true := mapHas_iff.mpr ⟨v, hvA⟩
          have hSm : mapHas m s.sustaining = false := hI.disj m hAm
          cases b with
          | true =>
              dsimp only
              rw [if_pos rfl]
              have hchar : ∀ r : ℤ × Voice,
                  r ∈ mapDelete m s.active ++
                      mapSet m (sustainVoice s.now v) s.sustaining →
                  r = (m, sustainVoice s.now v) ∨
                    (r ∈ s.active ++ s.sustaining ∧ r.1 ≠ m) := by
                intro r hr
                rcases List.mem_append.mp hr with h | h
                · obtain ⟨hA, hne⟩ := mem_mapDelete.mp h
                  exact Or.inr ⟨List.mem_append.mpr (Or.inl hA), hne⟩
                · rcases mem_mapSet.mp h with ⟨hS, hne⟩ | heq
                  · exact Or.inr ⟨List.mem_append.mpr (Or.inr hS), hne⟩
                  · exact Or.inl heq
              refine ⟨?_, ?_, ?_, ?_, ?_, ?_, ?_, ?_⟩
              · intro h
                simp [hc] at h
              · intro x hx
                obtain ⟨hne, hxA⟩ := mapHas_mapDelete_iff.mp hx
                cases h2 : mapHas x (mapSet m (sustainVoice s.now v) s.sustaining) with
                | false => rfl
                | true =>
                    rcases mapHas_mapSet_iff.mp h2 with rfl | ⟨_, hxS⟩
                    · exact absurd rfl hne
                    · have := hI.disj x hxA
                      rw [hxS] at this
                      exact absurd this (by simp)
              · intro p hp
                exact hI.activeLt p (mem_mapDelete.mp hp).1
              · intro p hp
                rcases mem_mapSet.mp hp with ⟨hS, _⟩ | rfl
                · exact hI.susLt p hS
                · exact hI.activeLt (m, v) hvA
              · exact hI.pendLt
              · intro p hp q hq hpq
                rcases hchar p hp with rfl | ⟨hpo, hpne⟩
                · rcases hchar q hq with rfl | ⟨hqo, hqne⟩
                  · rfl
                  · have : q = (m, v) := hI.own q hqo (m, v)
                      (List.mem_append.mpr (Or.inl hvA)) (by rw [← hpq]; exact sustainVoice_oscId s.now v)
                    rw [this] at hqne
                    exact absurd rfl hqne
                · rcases hchar q hq with rfl | ⟨hqo, hqne⟩
                  · have : p = (m, v) := hI.own p hpo (m, v)
                      (List.mem_append.mpr (Or.inl hvA)) (by rw [hpq]; exact sustainVoice_oscId s.now v)
                    rw [this] at hpne
                    exact absurd rfl hpne
                  · exact hI.own p hpo q hqo hpq
              · intro p hp q hq
                exact hI.pendActive p hp q (mem_mapDelete.mp hq).1
              · intro p hp q hq
                rcases mem_mapSet.mp hq with ⟨hS, _⟩ | rfl
                · exact hI.pendSus p hp q hS
                · exact hI.pendActive p hp (m, v) hvA
          | false =>
              dsimp only
              rw [if_neg Bool.false_ne_true]
              refine ⟨?_, ?_, ?_, ?_, ?_, ?_, ?_, ?_⟩
              · intro h
                simp [hc] at h
              · intro x hx
                exact hI.disj x (mapHas_mapDelete_iff.mp hx).2
              · intro p hp
                exact hI.activeLt p (mem_mapDelete.mp hp).1
              · exact hI.susLt
              · intro p hp
                rcases List.mem_append.mp hp with h | h
                · exact hI.pendLt p h
                · have : p.1.oscId = v.oscId := by
                    rw [List.mem_singleton.mp h]
                    exact stopVoice_oscId s.now v
                  rw [this]
                  exact hI.activeLt (m, v) hvA
              · intro p hp q hq hpq
                have hpo : p ∈ s.active ++ s.sustaining := by
                  rcases List.mem_append.mp hp with h | h
                  · exact List.mem_append.mpr (Or.inl (mem_mapDelete.mp h).1)
                  · exact List.mem_append.mpr (Or.inr h)
                have hqo : q ∈ s.active ++ s.sustaining := by
                  rcases List.mem_append.mp hq with h | h
                  · exact List.mem_append.mpr (Or.inl (mem_mapDelete.mp h).1)
                  · exact List.mem_append.mpr (Or.inr h)
                exact hI.own p hpo q hqo hpq
              · intro p hp q hq
                obtain ⟨hqA, hqne⟩ := mem_mapDelete.mp hq
                rcases List.mem_append.mp hp with h | h
                · exact hI.pendActive p h q hqA
                · have hpv : p.1.oscId = v.oscId := by
                    rw [List.mem_singleton.mp h]
                    exact stopVoice_oscId s.now v
                  rw [hpv]
                  intro heq
                  have : q = (m, v) := hI.own q
                    (List.mem_append.mpr (Or.inl hqA)) (m, v)
                    (List.mem_append.mpr (Or.inl hvA)) heq.symm
                  rw [this] at hqne
                  exact absurd rfl hqne
              · intro p hp q hq
                rcases List.mem_append.mp hp with h | h
                · exact hI.pendSus p h q hq
                · have hpv : p.1.oscId = v.oscId := by
                    rw [List.mem_singleton.mp h]
                    exact stopVoice_oscId s.now v
                  rw [hpv]
                  intro heq
                  have : q = (m, v) := hI.own q
                    (List.mem_append.mpr (Or.inr hq)) (m, v)
                    (List.mem_append.mpr (Or.inl hvA)) heq.symm
                  have hqS : (m, v) ∈ s.sustaining := this ▸ hq
                  have : mapHas m s.sustaining = true := mapHas_iff.mpr ⟨v, hqS⟩
                  rw [hSm] at this
                  exact absurd this (by simp)

theorem inv_setMasterVolume {s : SynthState} (hI : Inv s) (vol : ℚ) :
    Inv (setMasterVolume s vol) := by
  unfold setMasterVolume
  cases hc : s.ctxReady with
  | false => simpa using hI
  | true =>
      simp only [if_true]
      exact ⟨fun h => by simp [hc] at h, hI.disj, hI.activeLt, hI.susLt,
        hI.pendLt, hI.own, hI.pendActive, hI.pendSus⟩

theorem inv_releaseGlobalSustain {s : SynthState} (hI : Inv s) :
    Inv (releaseGlobalSustain s) := by
  unfold releaseGlobalSustain
  cases hc : s.ctxReady with
  | false => simpa using hI
  | true =>
      simp only [if_true]
      have hnewId : ∀ p ∈ s.sustaining.map
          (fun p => (releaseVoice s.now p.2, s.now + 3 / 10)),
          ∃ q ∈ s.sustaining, p.1.oscId = q.2.oscId := by
        intro p hp
        obtain ⟨q, hq, hqe⟩ := List.mem_map.mp hp
        refine ⟨q, hq, ?_⟩
        rw [← hqe]
        rfl
      refine ⟨?_, ?_, ?_, ?_, ?_, ?_, ?_, ?_⟩
      · intro h
        simp [hc] at h
      · intro x hx
        rfl
      · exact hI.activeLt
      · intro p hp
        exact absurd hp (List.not_mem_nil p)
      · intro p hp
        rcases List.mem_append.mp hp with h | h
        · exact hI.pendLt p h
        · obtain ⟨q, hq, hqe⟩ := hnewId p h
          rw [hqe]
          exact hI.susLt q hq
      · intro p hp q hq hpq
        have hpo : p ∈ s.active ++ s.sustaining := by
          rcases List.mem_append.mp hp with h | h
          · exact List.mem_append.mpr (Or.inl h)
          · exact absurd h (List.not_mem_nil p)
        have hqo : q ∈ s.active ++ s.sustaining := by
          rcases List.mem_append.mp hq with h | h
          · exact List.mem_append.mpr (Or.inl h)
          · exact absurd h (List.not_mem_nil q)
        exact hI.own p hpo q hqo hpq
      · intro p hp q hq
        rcases List.mem_append.mp hp with h | h
        · exact hI.pendActive p h q hq
        · obtain ⟨r, hr, hre⟩ := hnewId p h
          rw [hre]
          intro heq
          have : r = q := hI.own r
            (List.mem_append.mpr (Or.inr hr)) q
            (List.mem_append.mpr (Or.inl hq)) heq
          have hrA : r ∈ s.active := this ▸ hq
          have h1 : mapHas r.1 s.active = true := by
            refine mapHas_iff.mpr ⟨r.2, ?_⟩
            simpa using hrA
          have h2 : mapHas r.1 s.sustaining = true := by
            refine mapHas_iff.mpr ⟨r.2, ?_⟩
            simpa using hr
          have := hI.disj r.1 h1
          rw [h2] at this
          exact absurd this (by simp)
      · intro p hp q hq
        exact absurd hq (List.not_mem_nil q)

theorem inv_enforceSilence {s : SynthState} (hI : Inv s) (fails : ℕ → Bool) :
    Inv (enforceSilence fails s) := by
  unfold enforceSilence
  cases hc : s.ctxReady with
  | false => simpa using hI
  | true =>
      simp only [if_true]
      refine ⟨?_, ?_, ?_, ?_, ?_, ?_, ?_, ?_⟩
      · intro h
        exact ⟨rfl, rfl⟩
      · intro x hx
        rfl
      · intro p hp
        exact absurd hp (List.not_mem_nil p)
      · intro p hp
        exact absurd hp (List.not_mem_nil p)
      · exact hI.pendLt
      · intro p hp
        simp at hp
      · intro p hp q hq
        exact absurd hq (List.not_mem_nil q)
      · intro p hp q hq
        exact absurd hq (List.not_mem_nil q)

theorem inv_fireDisposal {s : SynthState} (hI : Inv s) :
    Inv (fireDisposal s) := by
  unfold fireDisposal
  cases hp : s.pendingDisposals with
  | nil => exact hI
  | cons hd rest =>
      cases hd with
      | mk v t =>
          have hmem : ∀ p ∈ rest, p ∈ s.pendingDisposals := by
            intro p h
            rw [hp]
            exact List.mem_cons_of_mem _ h
          exact ⟨hI.emptyNotReady, hI.disj, hI.activeLt, hI.susLt,
            fun p h => hI.pendLt p (hmem p h), hI.own,
            fun p h => hI.pendActive p (hmem p h),
            fun p h => hI.pendSus p (hmem p h)⟩

theorem inv_advanceTime {s : SynthState} (hI : Inv s) (dt : ℚ) :
    Inv (advanceTime s dt) :=
  ⟨hI.emptyNotReady, hI.disj, hI.activeLt, hI.susLt, hI.pendLt, hI.own,
    hI.pendActive, hI.pendSus⟩

theorem inv_step {s t : SynthState} (hI : Inv s) (h : Step s t) : Inv t := by
  cases h with
  | play m vol => exact inv_playNote hI m vol
  | stop m b => exact inv_stopNote hI m b
  | master vol => exact inv_setMasterVolume hI vol
  | releaseAll => exact inv_releaseGlobalSustain hI
  | silence fails => exact inv_enforceSilence hI fails
  | fire => exact inv_fireDisposal hI
  | tick dt => exact inv_advanceTime hI dt

theorem reachable_inv {s : SynthState} (h : Reachable s) : Inv s := by
  induction h with
  | init ready => exact inv_initState ready
  | step hr hs ih => exact inv_step ih hs

/-! ### The claims -/

/-- C1: in every registry state reachable by any sequence of `playNote`,
`stopNote`, `releaseGlobalSustain` and `enforceSilence` calls (timer firings
and clock ticks included) from the initial empty mappings, no note
identifier is a key of both `active` and `sustaining` at the same time. -/
theorem active_sustaining_disjoint {s : SynthState} (hr : Reachable s)
    (m : ℤ) :
    ¬(mapHas m s.active = true ∧ mapHas m s.sustaining = true) := by
  rintro ⟨ha, hs⟩
  have hd := (reachable_inv hr).disj m ha
  rw [hs] at hd
  exact absurd hd (by simp)

theorem active_sustaining_disjoint_witness :
    ¬(mapHas 60 (playNote (initState true) 60 (1 / 2)).active = true ∧
      mapHas 60 (playNote (initState true) 60 (1 / 2)).sustaining = true) :=
  active_sustaining_disjoint
    (Reachable.step (Reachable.init true) (Step.play (initState true) 60 (1 / 2)))
    60

/-- C2: on a reachable state, `playNote` on a note already present in
`active` leaves the entire registry state unchanged — no second generator is
created, so two `playNote` calls in a row yield exactly one voice. -/
theorem playNote_active_noop {s : SynthState} (hr : Reachable s) {m : ℤ}
    (hm : mapHas m s.active = true) (vol : ℚ) : playNote s m vol = s := by
  have hI := reachable_inv hr
  have hc : s.ctxReady = true := by
    cases hc : s.ctxReady with
    | true => rfl
    | false =>
        have hA := (hI.emptyNotReady hc).1
        rw [hA] at hm
        simp [mapHas, mapGet] at hm
  have hgs : mapGet m s.sustaining = none :=
    mapGet_eq_none_of_has_false (hI.disj m hm)
  unfold playNote
  rw [hc, if_pos rfl, hgs]
  dsimp only
  rw [hm, if_pos rfl]

theorem playNote_active_noop_witness :
    playNote (playNote (initState true) 60 (1 / 2)) 60 (3 / 4) =
      playNote (initState true) 60 (1 / 2) :=
  playNote_active_noop
    (Reachable.step (Reachable.init true) (Step.play (initState true) 60 (1 / 2)))
    (by decide) (3 / 4)

/-- C3: on a reachable state, `playNote` on a note present in `sustaining`
cancels the pending decay ramp, removes the note from `sustaining`, inserts
the same voice (same oscillator/gain pair, same current amplitude, no new
ramp scheduled) into `active` and returns, creating no new generator. -/
theorem playNote_retrigger_spec {s : SynthState} (hr : Reachable s) {m : ℤ}
    {v : Voice} (hv : mapGet m s.sustaining = some v) (vol : ℚ) :
    playNote s m vol =
      { s with sustaining := mapDelete m s.sustaining,
               active := mapSet m (retrigVoice v) s.active } ∧
    mapGet m (playNote s m vol).active = some (retrigVoice v) ∧
    mapHas m (playNote s m vol).sustaining = false ∧
    (playNote s m vol).nextOscId = s.nextOscId ∧
    (retrigVoice v).oscId = v.oscId ∧
    (retrigVoice v).gain.value = v.gain.value ∧
    (retrigVoice v).gain.sched = [] := by
  have hI := reachable_inv hr
  have hc : s.ctxReady = true := by
    cases hc : s.ctxReady with
    | true => rfl
    | false =>
        have hS := (hI.emptyNotReady hc).2
        rw [hS] at hv
        simp [mapGet] at hv
  have heq : playNote s m vol =
      { s with sustaining := mapDelete m s.sustaining,
               active := mapSet m (retrigVoice v) s.active } := by
    unfold playNote
    rw [hc, if_pos rfl, hv]
  refine ⟨heq, ?_, ?_, ?_, rfl, rfl, rfl⟩
  · rw [heq]
    exact mapGet_mapSet_self
  · rw [heq]
    exact mapHas_mapDelete_self
  · rw [heq]

theorem playNote_retrigger_spec_witness :
    mapHas 60 (playNote (stopNote (playNote (initState true) 60 (1 / 2)) 60 true)
      60 (1 / 2)).sustaining = false := by
  have hv : mapGet 60 (stopNote (playNote (initState true) 60 (1 / 2)) 60 true).sustaining
      = some (sustainVoice 0 (freshVoice 0 60 0 (1 / 2))) := rfl
  exact (playNote_retrigger_spec
    (Reachable.step (Reachable.step (Reachable.init true)
      (Step.play (initState true) 60 (1 / 2)))
      (Step.stop (playNote (initState true) 60 (1 / 2)) 60 true))
    hv (1 / 2)).2.2.1

/-- C4: on a reachable state, `stopNote` on a note in `active` removes it
from `active` and routes by the sustain flag: with the flag on, the voice
moves to `sustaining` with a linear ramp to `0.4 * gain.value` scheduled;
with the flag off, an exponential release to 0.001 is scheduled, the
oscillator is scheduled to stop after the release duration, and no mapping
retains the voice. -/
theorem stopNote_spec {s : SynthState} (hr : Reachable s) {m : ℤ} {v : Voice}
    (hv : mapGet m s.active = some v) :
    stopNote s m true =
      { s with active := mapDelete m s.active,
               sustaining := mapSet m (sustainVoice s.now v) s.sustaining } ∧
    (sustainVoice s.now v).gain.sched =
      [GainEvent.linearRamp (v.gain.value * (4 / 10)) (s.now + 8 / 10)] ∧
    mapGet m (stopNote s m true).sustaining = some (sustainVoice s.now v) ∧
    mapHas m (stopNote s m true).active = false ∧
    stopNote s m false =
      { s with active := mapDelete m s.active,
               pendingDisposals := s.pendingDisposals ++
                 [(stopVoice s.now v, s.now + (15 / 100 + 1 / 10))] } ∧
    (stopVoice s.now v).gain.sched =
      [GainEvent.setValue v.gain.value s.now,
       GainEvent.expRamp (1 / 1000) (s.now + 15 / 100)] ∧
    (stopVoice s.now v).oscStopTime = some (s.now + 15 / 100 + 5 / 100) ∧
    mapHas m (stopNote s m false).active = false ∧
    mapHas m (stopNote s m false).sustaining = false := by
  have hI := reachable_inv hr
  have hc : s.ctxReady = true := by
    cases hc : s.ctxReady with
    | true => rfl
    | false =>
        have hA := (hI.emptyNotReady hc).1
        rw [hA] at hv
        simp [mapGet] at hv
  have hSm : mapHas m s.sustaining = false :=
    hI.disj m (mapHas_iff.mpr ⟨v, mapGet_mem hv⟩)
  have heqT : stopNote s m true =
      { s with active := mapDelete m s.active,
               sustaining := mapSet m (sustainVoice s.now v) s.sustaining } := by
    unfold stopNote
    rw [hc, if_pos rfl, hv]
    dsimp only
    rw [if_pos rfl]
  have heqF : stopNote s m false =
      { s with active := mapDelete m s.active,
               pendingDisposals := s.pendingDisposals ++
                 [(stopVoice s.now v, s.now + (15 / 100 + 1 / 10))] } := by
    unfold stopNote
    rw [hc, if_pos rfl, hv]
    dsimp only
    rw [if_neg Bool.false_ne_true]
  refine ⟨heqT, rfl, ?_, ?_, heqF, rfl, rfl, ?_, ?_⟩
  · rw [heqT]
    exact mapGet_mapSet_self
  · rw [heqT]
    exact mapHas_mapDelete_self
  · rw [heqF]
    exact mapHas_mapDelete_self
  · rw [heqF]
    exact hSm

theorem stopNote_spec_witness :
    mapHas 60 (stopNote (playNote (initState true) 60 (1 / 2)) 60 false).sustaining
      = false := by
  have hv : mapGet 60 (playNote (initState true) 60 (1 / 2)).active
      = some (freshVoice 0 60 0 (1 / 2)) := rfl
  exact (stopNote_spec
    (Reachable.step (Reachable.init true) (Step.play (initState true) 60 (1 / 2)))
    hv).2.2.2.2.2.2.2.2

/-- C5: on a reachable state, `enforceSilence` leaves both mappings empty
synchronously, for every pattern of per-voice teardown failures: a voice
whose teardown throws is caught and skipped, while every non-failing voice
in either map is still disconnected — the sweep never aborts partway. -/
theorem enforceSilence_spec {s : SynthState} (hr : Reachable s)
    (fails : ℕ → Bool) :
    (enforceSilence fails s).active = [] ∧
    (enforceSilence fails s).sustaining = [] ∧
    ∀ p ∈ s.active ++ s.sustaining, fails p.2.oscId = false →
      p.2.oscId ∈ (enforceSilence fails s).disposed := by
  have hI := reachable_inv hr
  unfold enforceSilence
  cases hc : s.ctxReady with
  | false =>
      obtain ⟨hA, hS⟩ := hI.emptyNotReady hc
      rw [if_neg Bool.false_ne_true]
      refine ⟨hA, hS, ?_⟩
      intro p hp
      rw [hA, hS] at hp
      simp at hp
  | true =>
      rw [if_pos rfl]
      refine ⟨rfl, rfl, ?_⟩
      intro p hp hf
      show p.2.oscId ∈ s.disposed ++
        (s.active.filterMap fun q =>
          if fails q.2.oscId then none else some q.2.oscId) ++
        (s.sustaining.filterMap fun q =>
          if fails q.2.oscId then none else some q.2.oscId)
      rcases List.mem_append.mp hp with h | h
      · refine List.mem_append.mpr (Or.inl (List.mem_append.mpr (Or.inr ?_)))
        refine List.mem_filterMap.mpr ⟨p, h, ?_⟩
        rw [hf, if_neg Bool.false_ne_true]
      · refine List.mem_append.mpr (Or.inr ?_)
        refine List.mem_filterMap.mpr ⟨p, h, ?_⟩
        rw [hf, if_neg Bool.false_ne_true]

theorem enforceSilence_spec_witness :
    (enforceSilence (fun i => i == 0)
      (stopNote (playNote (playNote (initState true) 60 1) 62 1) 62 true)).active = [] ∧
    (enforceSilence (fun i => i == 0)
      (stopNote (playNote (playNote (initState true) 60 1) 62 1) 62 true)).sustaining = [] ∧
    (1 : ℕ) ∈ (enforceSilence (fun i => i == 0)
      (stopNote (playNote (playNote (initState true) 60 1) 62 1) 62 true)).disposed := by
  have hr : Reachable (stopNote (playNote (playNote (initState true) 60 1) 62 1) 62 true) :=
    Reachable.step (Reachable.step (Reachable.step (Reachable.init true)
      (Step.play (initState true) 60 1))
      (Step.play (playNote (initState true) 60 1) 62 1))
      (Step.stop (playNote (playNote (initState true) 60 1) 62 1) 62 true)
  have h := enforceSilence_spec hr (fun i => i == 0)
  refine ⟨h.1, h.2.1, ?_⟩
  exact h.2.2 ((62 : ℤ), sustainVoice 0 (freshVoice 1 62 0 1))
    (List.mem_append.mpr (Or.inr (List.mem_singleton.mpr rfl))) rfl

/-- C6 (amended): `setMasterVolume(v)` scales the 0-10 UI volume to 0-1 —
it applies `min 1 (max 0 (v / 10))` to the master gain immediately with a
pinning `setValueAtTime` and no ramp; `setMasterVolume(-5)` applies 0,
`setMasterVolume(50)` applies the maximum 1, and an in-range `v` in `[0,10]`
yields a master gain of `v / 10`; per-voice state is untouched. -/
theorem setMasterVolume_spec {s : SynthState} (hc : s.ctxReady = true)
    (volume : ℚ) :
    (setMasterVolume s volume).masterGain.value = min 1 (max 0 (volume / 10)) ∧
    (setMasterVolume s volume).masterGain.sched =
      s.masterGain.sched ++
        [GainEvent.setValue (min 1 (max 0 (volume / 10))) s.now] ∧
    (setMasterVolume s volume).active = s.active ∧
    (setMasterVolume s volume).sustaining = s.sustaining ∧
    (setMasterVolume s (-5)).masterGain.value = 0 ∧
    (setMasterVolume s 50).masterGain.value = 1 ∧
    (0 ≤ volume → volume ≤ 10 →
      (setMasterVolume s volume).masterGain.value = volume / 10) := by
  have heq : ∀ w : ℚ, setMasterVolume s w =
      { s with masterGain :=
          gainSetValueAtTime s.masterGain (min 1 (max 0 (w / 10))) s.now } := by
    intro w
    unfold setMasterVolume
    rw [hc, if_pos rfl]
  refine ⟨by rw [heq volume]; rfl, by rw [heq volume]; rfl,
    by rw [heq volume], by rw [heq volume], ?_, ?_, ?_⟩
  · rw [heq (-5)]
    show min 1 (max 0 ((-5 : ℚ) / 10)) = 0
    norm_num
  · rw [heq 50]
    show min 1 (max 0 ((50 : ℚ) / 10)) = 1
    norm_num
  · intro h0 h10
    rw [heq volume]
    show min 1 (max 0 (volume / 10)) = volume / 10
    rw [max_eq_right (by linarith), min_eq_right (by linarith)]

theorem setMasterVolume_spec_witness :
    (setMasterVolume (initState true) 7).masterGain.value = 7 / 10 :=
  (setMasterVolume_spec (show (initState true).ctxReady = true from rfl)
    7).2.2.2.2.2.2 (by norm_num) (by norm_num)

/-- C6 counterexample: the frozen claim says an in-range `v` in `[0,1]` is
applied as the master gain itself; the code divides by 10 first, so
`setMasterVolume(1)` yields a master gain of `1/10`, not `1`. -/
theorem setMasterVolume_claim_cex :
    (setMasterVolume (initState true) 1).masterGain.value = 1 / 10 ∧
    (1 : ℚ) / 10 ≠ 1 := by
  constructor
  · show min 1 (max 0 ((1 : ℚ) / 10)) = 1 / 10
    norm_num
  · norm_num

/-- C7 (amended): on a reachable state, `releaseGlobalSustain` empties the
`sustaining` mapping synchronously — a membership query at any time after
the call, including before the release duration has elapsed, reports the
note absent from both mappings — while the release ramp, the oscillator
stop at `t + 0.25` and the deferred disconnect at `t + 0.3` are scheduled
to complete after the call returns. -/
theorem releaseGlobalSustain_spec {s : SynthState} (hr : Reachable s)
    {m : ℤ} {v : Voice} (hv : mapGet m s.sustaining = some v) :
    (releaseGlobalSustain s).sustaining = [] ∧
    mapHas m (releaseGlobalSustain s).sustaining = false ∧
    mapHas m (releaseGlobalSustain s).active = false ∧
    (releaseVoice s.now v, s.now + 3 / 10) ∈
      (releaseGlobalSustain s).pendingDisposals ∧
    (releaseVoice s.now v).oscStopTime = some (s.now + 2 / 10 + 5 / 100) ∧
    (releaseVoice s.now v).gain.sched =
      [GainEvent.setValue v.gain.value s.now,
       GainEvent.expRamp (1 / 1000) (s.now + 2 / 10)] ∧
    (releaseGlobalSustain s).now = s.now := by
  have hI := reachable_inv hr
  have hc : s.ctxReady = true := by
    cases hc : s.ctxReady with
    | true => rfl
    | false =>
        have hS := (hI.emptyNotReady hc).2
        rw [hS] at hv
        simp [mapGet] at hv
  have hSm : mapHas m s.sustaining = true :=
    mapHas_iff.mpr ⟨v, mapGet_mem hv⟩
  have hAm : mapHas m s.active = false := by
    cases hA : mapHas m s.active with
    | false => rfl
    | true =>
        have hd := hI.disj m hA
        rw [hSm] at hd
        exact absurd hd (by simp)
  have heq : releaseGlobalSustain s =
      { s with sustaining := [],
               pendingDisposals := s.pendingDisposals ++
                 s.sustaining.map
                   (fun p => (releaseVoice s.now p.2, s.now + 3 / 10)) } := by
    unfold releaseGlobalSustain
    rw [hc, if_pos rfl]
  refine ⟨by rw [heq], by rw [heq]; rfl, ?_, ?_, rfl, rfl, by rw [heq]⟩
  · rw [heq]
    exact hAm
  · rw [heq]
    refine List.mem_append.mpr (Or.inr ?_)
    exact List.mem_map.mpr ⟨(m, v), mapGet_mem hv, rfl⟩

theorem releaseGlobalSustain_spec_witness :
    mapHas 60 (releaseGlobalSustain
      (stopNote (playNote (initState true) 60 (1 / 2)) 60 true)).sustaining
      = false := by
  have hv : mapGet 60 (stopNote (playNote (initState true) 60 (1 / 2)) 60 true).sustaining
      = some (sustainVoice 0 (freshVoice 0 60 0 (1 / 2))) := rfl
  exact (releaseGlobalSustain_spec
    (Reachable.step (Reachable.step (Reachable.init true)
      (Step.play (initState true) 60 (1 / 2)))
      (Step.stop (playNote (initState true) 60 (1 / 2)) 60 true))
    hv).2.1

/-- C7 counterexample: the frozen claim says a membership query issued
before the release duration has elapsed still reports the note present in
`sustaining`; in the code `sustainedOscillators.current.clear()` runs
synchronously, so with note 60 sustaining, immediately after
`releaseGlobalSustain` returns — no time has advanced — the note is already
absent from `sustaining`. -/
theorem releaseGlobalSustain_eager_cex :
    mapHas 60 (stopNote (playNote (initState true) 60 (1 / 2)) 60 true).sustaining
      = true ∧
    (releaseGlobalSustain
      (stopNote (playNote (initState true) 60 (1 / 2)) 60 true)).now =
      (stopNote (playNote (initState true) 60 (1 / 2)) 60 true).now ∧
    mapHas 60 (releaseGlobalSustain
      (stopNote (playNote (initState true) 60 (1 / 2)) 60 true)).sustaining
      = false := by
  refine ⟨by decide, rfl, by decide⟩

/-- C8 (amended): among the four ramp-scheduling sites, the attack in
`playNote` operates on a freshly created gain node (nothing pending) and
pins an explicit 0 before its ramp, and both release paths (the release
branch of `stopNote` and `releaseGlobalSustain`) cancel all pending
segments and pin the current value before the new exponential ramp — their
resulting schedules are pinned; the sustain-decay branch of `stopNote`
cancels pending segments but schedules its linear ramp without first
pinning the current value, so its resulting schedule is not pinned. -/
theorem ramp_pinning_spec {s : SynthState} (hc : s.ctxReady = true)
    {m : ℤ} {v : Voice} (hv : mapGet m s.active = some v)
    {m2 : ℤ} {w : Voice} (hw : mapGet m2 s.sustaining = some w)
    {k : ℤ} (hka : mapHas k s.active = false)
    (hks : mapHas k s.sustaining = false) (vol : ℚ) :
    (freshVoice s.nextOscId k s.now vol).gain.sched =
      [GainEvent.setValue 0 s.now, GainEvent.linearRamp vol (s.now + 15 / 1000)] ∧
    pinnedSched (freshVoice s.nextOscId k s.now vol).gain.sched = true ∧
    mapGet k (playNote s k vol).active =
      some (freshVoice s.nextOscId k s.now vol) ∧
    (stopVoice s.now v).gain.sched =
      [GainEvent.setValue v.gain.value s.now,
       GainEvent.expRamp (1 / 1000) (s.now + 15 / 100)] ∧
    pinnedSched (stopVoice s.now v).gain.sched = true ∧
    (stopNote s m false).pendingDisposals =
      s.pendingDisposals ++ [(stopVoice s.now v, s.now + (15 / 100 + 1 / 10))] ∧
    (releaseVoice s.now w).gain.sched =
      [GainEvent.setValue w.gain.value s.now,
       GainEvent.expRamp (1 / 1000) (s.now + 2 / 10)] ∧
    pinnedSched (releaseVoice s.now w).gain.sched = true ∧
    (releaseVoice s.now w, s.now + 3 / 10) ∈
      (releaseGlobalSustain s).pendingDisposals ∧
    (sustainVoice s.now v).gain.sched =
      [GainEvent.linearRamp (v.gain.value * (4 / 10)) (s.now + 8 / 10)] ∧
    pinnedSched (sustainVoice s.now v).gain.sched = false ∧
    mapGet m (stopNote s m true).sustaining = some (sustainVoice s.now v) := by
  have hgs : mapGet k s.sustaining = none := mapGet_eq_none_of_has_false hks
  have heqP : playNote s k vol =
      { s with active := mapSet k (freshVoice s.nextOscId k s.now vol) s.active,
               nextOscId := s.nextOscId + 1 } := by
    unfold playNote
    rw [hc, if_pos rfl, hgs]
    dsimp only
    rw [hka, if_neg Bool.false_ne_true]
  have heqT : stopNote s m true =
      { s with active := mapDelete m s.active,
               sustaining := mapSet m (sustainVoice s.now v) s.sustaining } := by
    unfold stopNote
    rw [hc, if_pos rfl, hv]
    dsimp only
    rw [if_pos rfl]
  have heqF : stopNote s m false =
      { s with active := mapDelete m s.active,
               pendingDisposals := s.pendingDisposals ++
                 [(stopVoice s.now v, s.now + (15 / 100 + 1 / 10))] } := by
    unfold stopNote
    rw [hc, if_pos rfl, hv]
    dsimp only
    rw [if_neg Bool.false_ne_true]
  have heqR : releaseGlobalSustain s =
      { s with sustaining := [],
               pendingDisposals := s.pendingDisposals ++
                 s.sustaining.map
                   (fun p => (releaseVoice s.now p.2, s.now + 3 / 10)) } := by
    unfold releaseGlobalSustain
    rw [hc, if_pos rfl]
  refine ⟨rfl, rfl, ?_, rfl, rfl, ?_, rfl, rfl, ?_, rfl, rfl, ?_⟩
  · rw [heqP]
    exact mapGet_mapSet_self
  · rw [heqF]
  · rw [heqR]
    refine List.mem_append.mpr (Or.inr ?_)
    exact List.mem_map.mpr ⟨(m2, w), mapGet_mem hw, rfl⟩
  · rw [heqT]
    exact mapGet_mapSet_self

theorem ramp_pinning_spec_witness :
    pinnedSched (sustainVoice 0 (freshVoice 0 60 0 1)).gain.sched = false := by
  have hv : mapGet 60 (stopNote (playNote (playNote (initState true) 60 1) 62 1)
      62 true).active = some (freshVoice 0 60 0 1) := rfl
  have hw : mapGet 62 (stopNote (playNote (playNote (initState true) 60 1) 62 1)
      62 true).sustaining = some (sustainVoice 0 (freshVoice 1 62 0 1)) := rfl
  exact (ramp_pinning_spec rfl hv hw (show mapHas 64 _ = false by decide)
    (show mapHas 64 _ = false by decide) 1).2.2.2.2.2.2.2.2.2.2.1

/-- C8 counterexample: the frozen claim says the current amplitude is
pinned before every newly scheduled ramp; in the sustain-decay branch of
`stopNote` the code calls `cancelScheduledValues` and then
`linearRampToValueAtTime` with no `setValueAtTime` in between, so the
resulting schedule of the sustained voice starts with an unpinned ramp. -/
theorem sustainDecay_unpinned_cex :
    Option.map (fun v => v.gain.sched.any isRamp)
      (mapGet 60 (stopNote (playNote (initState true) 60 (1 / 2)) 60 true).sustaining)
      = some true ∧
    Option.map (fun v => pinnedSched v.gain.sched)
      (mapGet 60 (stopNote (playNote (initState true) 60 (1 / 2)) 60 true).sustaining)
      = some false :=
  ⟨rfl, rfl⟩

/-- C9 (amended): a scheduled disposal callback is never cancelled or
suppressed — when it fires it always disconnects the oscillator/gain pair
it captured — but on every reachable state the voice held by a pending
disposal is in neither mapping (a retriggered note gets a fresh voice
object), so no timer callback ever disconnects an oscillator or gain node
of a voice currently in `active` or `sustaining`. -/
theorem disposal_safety {s : SynthState} (hr : Reachable s) :
    (∀ p ∈ s.pendingDisposals, ∀ q ∈ s.active ++ s.sustaining,
      p.1.oscId ≠ q.2.oscId) ∧
    ∀ v t rest, s.pendingDisposals = (v, t) :: rest →
      fireDisposal s =
        { s with pendingDisposals := rest,
                 disposed := s.disposed ++ [v.oscId] } := by
  have hI := reachable_inv hr
  constructor
  · intro p hp q hq
    rcases List.mem_append.mp hq with h | h
    · exact hI.pendActive p hp q h
    · exact hI.pendSus p hp q h
  · intro v t rest h
    unfold fireDisposal
    rw [h]

theorem disposal_safety_witness :
    (stopVoice 0 (freshVoice 0 60 0 (1 / 2)), (0 : ℚ) + (15 / 100 + 1 / 10)).1.oscId ≠
      ((60 : ℤ), freshVoice 1 60 0 (1 / 2)).2.oscId := by
  have hr : Reachable (playNote (stopNote (playNote (initState true) 60 (1 / 2))
      60 false) 60 (1 / 2)) :=
    Reachable.step (Reachable.step (Reachable.step (Reachable.init true)
      (Step.play (initState true) 60 (1 / 2)))
      (Step.stop (playNote (initState true) 60 (1 / 2)) 60 false))
      (Step.play (stopNote (playNote (initState true) 60 (1 / 2)) 60 false) 60 (1 / 2))
  exact (disposal_safety hr).1
    (stopVoice 0 (freshVoice 0 60 0 (1 / 2)), (0 : ℚ) + (15 / 100 + 1 / 10))
    (List.mem_singleton.mpr rfl)
    ((60 : ℤ), freshVoice 1 60 0 (1 / 2))
    (List.mem_append.mpr (Or.inl (List.mem_singleton.mpr rfl)))

/-- C9 counterexample: the frozen claim says a disposal scheduled for a
note that is retriggered before the timer fires is detected and
suppressed; in the code the `setTimeout` callback performs no membership
re-check and always runs: after `playNote 60`, `stopNote 60 false`,
`playNote 60`, note 60 is again active and one disposal is pending, and
firing it still executes the disconnect of the captured oscillator
(oscillator 0 enters `disposed`) rather than being suppressed. -/
theorem disposal_not_suppressed_cex :
    mapHas 60 (playNote (stopNote (playNote (initState true) 60 (1 / 2)) 60 false)
      60 (1 / 2)).active = true ∧
    (playNote (stopNote (playNote (initState true) 60 (1 / 2)) 60 false)
      60 (1 / 2)).pendingDisposals.length = 1 ∧
    (fireDisposal (playNote (stopNote (playNote (initState true) 60 (1 / 2)) 60 false)
      60 (1 / 2))).disposed = [0] ∧
    (fireDisposal (playNote (stopNote (playNote (initState true) 60 (1 / 2)) 60 false)
      60 (1 / 2))).pendingDisposals = [] := by
  refine ⟨by decide, rfl, rfl, rfl⟩

/-- C10: `playNote` performs no range validation on the note identifier:
for every integer `midiNote` — values outside `[24,108]` included — if the
backend is ready and the note is in neither mapping, a fresh voice is
created and registered whose oscillator frequency is
`440 * 2 ^ ((midiNote - 69) / 12)`; the `[24,108]` bound is enforced only
by the keyboard input layer's guard. -/
theorem playNote_no_range_check {s : SynthState} {m : ℤ}
    (hc : s.ctxReady = true) (ha : mapHas m s.active = false)
    (hs : mapHas m s.sustaining = false) (vol : ℚ) :
    playNote s m vol =
      { s with active := mapSet m (freshVoice s.nextOscId m s.now vol) s.active,
               nextOscId := s.nextOscId + 1 } ∧
    mapGet m (playNote s m vol).active =
      some (freshVoice s.nextOscId m s.now vol) ∧
    (freshVoice s.nextOscId m s.now vol).midi = m ∧
    voiceFrequency (freshVoice s.nextOscId m s.now vol) =
      440 * (2 : ℝ) ^ (((m : ℝ) - 69) / 12) ∧
    (freshVoice s.nextOscId m s.now vol).gain.sched =
      [GainEvent.setValue 0 s.now, GainEvent.linearRamp vol (s.now + 15 / 1000)] ∧
    ∀ x : Option ℤ, handleKeyDownAllows x = true →
      ∃ kk, x = some kk ∧ 24 ≤ kk ∧ kk ≤ 108 := by
  have hgs : mapGet m s.sustaining = none := mapGet_eq_none_of_has_false hs
  have heq : playNote s m vol =
      { s with active := mapSet m (freshVoice s.nextOscId m s.now vol) s.active,
               nextOscId := s.nextOscId + 1 } := by
    unfold playNote
    rw [hc, if_pos rfl, hgs]
    dsimp only
    rw [ha, if_neg Bool.false_ne_true]
  refine ⟨heq, ?_, rfl, rfl, rfl, ?_⟩
  · rw [heq]
    exact mapGet_mapSet_self
  · intro x hx
    cases x with
    | none => exact absurd hx (by simp [handleKeyDownAllows])
    | some kk =>
        simp [handleKeyDownAllows] at hx
        refine ⟨kk, rfl, ?_, ?_⟩ <;> omega

theorem playNote_no_range_check_witness :
    mapHas 200 (playNote (initState true) 200 (1 / 2)).active = true ∧
    handleKeyDownAllows (some 200) = false := by
  have h := (@playNote_no_range_check (initState true) 200 rfl (by decide)
    (by decide) (1 / 2)).2.1
  constructor
  · unfold mapHas
    rw [h]
    rfl
  · decide

end PianoSynth
